import Mathlib

/-!
# Ankigenix core — shallow embedding and verification

This file embeds the core of the Ankigenix document-to-flashcard pipeline in
Lean 4 and proves (or refutes) the specification's testable properties about
it.  The embedded code comes from:

* `src/config/pricing.ts`          — billing calculator (pure functions);
* `src/lib/ai/tokenizer.ts`        — token counting / truncation, built on the
  external `gpt-tokenizer` package (`encode` / `decode`), which we model as an
  abstract codec parameter `BPE`;
* `src/lib/ai/chunking.ts`         — the chunker (`splitIntoChunks` and its
  paragraph / sentence / fixed strategies);
* `src/lib/ai/outline.ts`          — outline construction
  (`buildChapterInfo`, `generateOutline`'s pure post-processing,
  `extractSelectedChaptersText`);
* `src/inngest/functions.ts`       — the task coordinator steps
  (credit debit, per-chunk fan-out, merge/dedupe, analyze pipeline).

JavaScript numbers are modelled as exact arithmetic (`Nat` / `Int` for counts
and offsets, `ℚ` for credit amounts); database rows touched by a step are
modelled as explicit record state threaded through the step functions, and the
LLM / storage collaborators are modelled as oracle arguments (`Except` values
for fallible calls).  Loops whose termination is in question are given an
explicit fuel parameter and return `none` when the fuel runs out, so that
"terminates" is expressible as "`some` for some fuel".
-/

namespace Ankigenix

/-! ## Binary64 number model

The pricing code runs on JS numbers, i.e. IEEE-754 binary64 values.  A
binary64 value is an exact rational, and every arithmetic operation rounds
its exact rational result to the nearest representable value (ties to even),
so we model JS numbers as rationals together with an explicit rounding
function `fl`: `fl q` is the rational value of the binary64 double nearest
to `q` (53-bit significand; exponent overflow and subnormal rounding are out
of range for every value the pricing code manipulates, so they are not
modelled). -/

/-- Floor of the base-2 logarithm of a positive natural number, computed
with an explicit structural fuel so that it evaluates inside the kernel. -/
def natLog2Aux : Nat → Nat → Nat
  | 0, _ => 0
  | fuel + 1, n => if n ≥ 2 then natLog2Aux fuel (n / 2) + 1 else 0

/-- `natLog2 n` is `⌊log₂ n⌋` for `n ≥ 1` (and 0 at 0). -/
def natLog2 (n : Nat) : Nat := natLog2Aux n n

/-- `⌊log₂ q⌋` for a positive rational `q`: the unique `k` with
`2 ^ k ≤ q < 2 ^ (k + 1)`. -/
def ilog2 (q : ℚ) : ℤ :=
  let k : ℤ := (natLog2 q.num.natAbs : ℤ) - (natLog2 q.den : ℤ)
  if q < (2 : ℚ) ^ k then k - 1 else k

/-- Round a rational to the nearest integer, ties to even. -/
def rhe (m : ℚ) : ℤ :=
  if m - ⌊m⌋ < 1 / 2 then ⌊m⌋
  else if 1 / 2 < m - ⌊m⌋ then ⌊m⌋ + 1
  else if ⌊m⌋ % 2 = 0 then ⌊m⌋ else ⌊m⌋ + 1

/-- Round a positive rational to the binary64 grid: scale into
`[2^52, 2^53)`, round the 53-bit significand to nearest (ties to even), and
scale back. -/
def flPos (q : ℚ) : ℚ :=
  (rhe (q / (2 : ℚ) ^ (ilog2 q - 52)) : ℚ) * (2 : ℚ) ^ (ilog2 q - 52)

/-- The binary64 value nearest to the rational `q` (round to nearest, ties
to even). -/
def fl (q : ℚ) : ℚ :=
  if q = 0 then 0 else if q < 0 then -flPos (-q) else flPos q

/-- JS `a * b`: the exact product, rounded to binary64. -/
def jsMul (a b : ℚ) : ℚ := fl (a * b)

/-- JS `a / b`: the exact quotient, rounded to binary64. -/
def jsDiv (a b : ℚ) : ℚ := fl (a / b)

/-! ## Pricing (`src/config/pricing.ts`) -/

/-- `INDEXING_RATE_PER_10K_TOKENS = 1.2` (pricing.ts line 18): the binary64
value denoted by the literal `1.2`, which is slightly below 6/5. -/
def INDEXING_RATE_PER_10K_TOKENS : ℚ := fl (6/5)

/-- `CREATION_RATE_PER_10K_TOKENS = 2.0` (pricing.ts line 26); 2 is exactly
representable. -/
def CREATION_RATE_PER_10K_TOKENS : ℚ := 2

/-- `MIN_CREDITS_COST = 0.01` (pricing.ts line 49): the binary64 value
denoted by the literal `0.01`. -/
def MIN_CREDITS_COST : ℚ := fl (1/100)

/-- `truncateToTwoDecimals(value) = Math.floor(value * 100) / 100`
(pricing.ts lines 61-63), in binary64 arithmetic.  `Math.floor` itself is
exact: its result `⌊x⌋` is an integer of magnitude at most `x`, hence
representable whenever `x` is (integers below `2^53` are representable, and
every representable value of magnitude `≥ 2^53` is already an integer). -/
def truncateToTwoDecimals (value : ℚ) : ℚ := jsDiv (⌊jsMul value 100⌋ : ℚ) 100

/-- `calculateIndexingCost(totalTokens)` (pricing.ts lines 75-78):
`max(MIN_CREDITS_COST, truncateToTwoDecimals(totalTokens / 10000 * RATE))`
in binary64 arithmetic.  The argument is the binary64 value held by the
program (an integer token count below `2^53` is represented exactly). -/
def calculateIndexingCost (totalTokens : ℚ) : ℚ :=
  max MIN_CREDITS_COST
    (truncateToTwoDecimals (jsMul (jsDiv totalTokens 10000)
      INDEXING_RATE_PER_10K_TOKENS))

/-- `calculateCreationCost(selectedTokens)` (pricing.ts lines 86-89). -/
def calculateCreationCost (selectedTokens : ℚ) : ℚ :=
  max MIN_CREDITS_COST
    (truncateToTwoDecimals (jsMul (jsDiv selectedTokens 10000)
      CREATION_RATE_PER_10K_TOKENS))

/-! ## Tokenizer (`src/lib/ai/tokenizer.ts`)

The tokenizer is a thin wrapper over the external `gpt-tokenizer` npm
package's `encode` / `decode` pair.  That package is not part of this
repository, so we model the codec as an abstract parameter `BPE`; the
repository's own functions (`countTokens`, `truncateToTokens`) are defined
from it exactly as in the source. -/

/-- The external `gpt-tokenizer` codec: `encode : string -> number[]` and
`decode : number[] -> string`. -/
structure BPE where
  encode : String → List Nat
  decode : List Nat → String

/-- `countTokens(text)` (tokenizer.ts lines 16-21):
`if (!text || text.length === 0) return 0; return encode(text).length`.
The only falsy string is the empty string. -/
def countTokens (bpe : BPE) (text : String) : Nat :=
  if text = "" then 0 else (bpe.encode text).length

/-- `truncateToTokens(text, maxTokens)` (tokenizer.ts lines 63-69); the
source binds `tokens = encode(text)` once, inlined here. -/
def truncateToTokens (bpe : BPE) (text : String) (maxTokens : Nat) : String :=
  if (bpe.encode text).length ≤ maxTokens then text
  else bpe.decode ((bpe.encode text).take maxTokens)

/-- A concrete codec used to run the embedded code on concrete inputs: one
token per character.  It is an instance of the abstract codec interface that
satisfies all the structural facts used in the proofs below (every token
decodes to at least one character, nonempty text encodes to a nonempty token
list, and the codec round-trips). -/
def charBPE : BPE where
  encode s := s.data.map Char.toNat
  decode ts := ⟨ts.map Char.ofNat⟩

/-! ## Chunker (`src/lib/ai/chunking.ts`)

`TextChunk`, `splitIntoChunks` and the three strategies.  Character offsets
are modelled as `Int` because the JS arithmetic on `currentOffset` /
`chunkStartOffset` can produce negative values.  The `splitFixed` while-loop
is given an explicit fuel parameter and returns `none` when the fuel is
exhausted, so termination of the source loop is exactly
`∃ fuel, … = some _`. -/

/-- JS `s.toLowerCase()`: lower-case each character. -/
def jsToLower (s : String) : String := ⟨s.data.map Char.toLower⟩

/-- JS `s.trim()`: remove whitespace from both ends. -/
def jsTrim (s : String) : String :=
  ⟨((s.data.dropWhile Char.isWhitespace).reverse.dropWhile
      Char.isWhitespace).reverse⟩

/-- `TextChunk` (chunking.ts lines 18-29). -/
structure TextChunk where
  index : Nat
  text : String
  tokenCount : Nat
  startOffset : Int
  endOffset : Int
deriving DecidableEq, Repr

/-- `DEFAULT_MAX_TOKENS = 3500` (chunking.ts line 31). -/
def DEFAULT_MAX_TOKENS : Nat := 3500

/-- `DEFAULT_OVERLAP = 200` (chunking.ts line 32). -/
def DEFAULT_OVERLAP : Nat := 200

/-- JS `s.slice(i)` for a possibly negative `i`: a negative start counts from
the end of the string (clamped at 0), a nonnegative start drops that many
characters. -/
def jsSliceFrom (s : String) (i : Int) : String :=
  if i < 0 then ⟨s.data.drop ((s.length : Int) + i).toNat⟩
  else ⟨s.data.drop i.toNat⟩

/-- JS `s.slice(-n)` for a nonnegative `n` (used by `getOverlapText`):
`s.slice(-0)` is `s.slice(0)`, the whole string; otherwise the last
`min n (length s)` characters. -/
def jsSliceLast (s : String) (n : Nat) : String :=
  if n = 0 then s else ⟨s.data.drop (s.length - n)⟩

/-- `getOverlapText(text, overlapTokens)` (chunking.ts lines 281-293): the
overlap suffix seeding the next chunk, sized via the average chars-per-token
of the closed chunk.  `Math.floor(overlapTokens * (text.length / tokens))` is
modelled as exact natural division `overlapTokens * text.length / tokens`. -/
def getOverlapText (bpe : BPE) (text : String) (overlapTokens : Nat) : String :=
  if overlapTokens = 0 then ""
  else
    let tokens := countTokens bpe text
    if tokens ≤ overlapTokens then text
    else
      let overlapChars := overlapTokens * text.length / tokens
      jsSliceLast text overlapChars

/-- The body of the `splitFixed` while-loop (chunking.ts lines 232-254),
with fuel.  `Math.floor((overlap / tokenCount) * chunkText.length)` is
modelled as `overlap * chunkText.length / tokenCount` (exact natural
division); when `tokenCount = 0` the chunk text is empty and the loop breaks
on the very next line, so the value is irrelevant and we take 0. -/
def splitFixedGo (bpe : BPE) (text : String) (maxTokens overlap : Nat) :
    Nat → Int → List TextChunk → Option (List TextChunk)
  | 0, _, _ => none
  | fuel + 1, currentOffset, chunks =>
    if currentOffset < (text.length : Int) then
      let remainingText := jsSliceFrom text currentOffset
      let chunkText := truncateToTokens bpe remainingText maxTokens
      let tokenCount := countTokens bpe chunkText
      let chunks' := chunks ++ [⟨chunks.length, chunkText, tokenCount,
        currentOffset, currentOffset + chunkText.length⟩]
      let overlapChars : Nat :=
        if tokenCount = 0 then 0 else overlap * chunkText.length / tokenCount
      let nextOffset := currentOffset + (chunkText.length : Int) - overlapChars
      if chunkText.length = 0 then some chunks'
      else splitFixedGo bpe text maxTokens overlap fuel nextOffset chunks'
    else some chunks

/-- `splitFixed(text, maxTokens, overlap)` (chunking.ts lines 224-257). -/
def splitFixed (bpe : BPE) (fuel : Nat) (text : String)
    (maxTokens overlap : Nat) : Option (List TextChunk) :=
  splitFixedGo bpe text maxTokens overlap fuel 0 []

/-- The characters the sentence-splitting regexes treat as sentence enders:
`[.!?。！？]`. -/
def isSentenceEnder (c : Char) : Bool :=
  c = '.' || c = '!' || c = '?' || c = '。' || c = '！' || c = '？'

/-- `text.split(/(?<=[.!?。！？])\s+/)` (chunking.ts line 178): split after a
sentence ender at a maximal nonempty whitespace run, the whitespace being
consumed as the separator.  `afterEnder` records whether the previous
character of the original string was a sentence ender (the lookbehind). -/
def splitSentencesGo : List Char → Bool → List Char → List String
  | [], _, acc => [⟨acc.reverse⟩]
  | c :: rest, afterEnder, acc =>
    if afterEnder && c.isWhitespace then
      (⟨acc.reverse⟩ : String) ::
        splitSentencesGo (rest.dropWhile Char.isWhitespace) false []
    else
      splitSentencesGo rest (isSentenceEnder c) (c :: acc)
termination_by l _ _ => l.length
decreasing_by
  · exact Nat.lt_succ_of_le (List.dropWhile_sublist Char.isWhitespace).length_le
  · exact Nat.lt_succ_self rest.length

/-- `text.split(/(?<=[.!?。！？])\s+/)` as a function on strings. -/
def splitSentences (text : String) : List String :=
  splitSentencesGo text.data false []

/-- State of the accumulation loops in `splitBySentence` /
`splitByParagraph` (chunking.ts lines 96-98 and 181-183). -/
structure AccState where
  chunks : List TextChunk
  currentChunk : String
  currentOffset : Int
  chunkStartOffset : Int

/-- One iteration of the `splitBySentence` loop (chunking.ts lines 185-206). -/
def sentenceStep (bpe : BPE) (maxTokens overlap : Nat) (st : AccState)
    (sentence : String) : AccState :=
  let testChunk :=
    if st.currentChunk = "" then sentence
    else st.currentChunk ++ " " ++ sentence
  let testTokens := countTokens bpe testChunk
  if testTokens > maxTokens ∧ st.currentChunk ≠ "" then
    let chunks := st.chunks ++ [⟨st.chunks.length, st.currentChunk,
      countTokens bpe st.currentChunk, st.chunkStartOffset, st.currentOffset⟩]
    let overlapText := getOverlapText bpe st.currentChunk overlap
    { chunks
      currentChunk :=
        if overlapText = "" then sentence else overlapText ++ " " ++ sentence
      currentOffset := st.currentOffset + sentence.length + 1
      chunkStartOffset := st.currentOffset - overlapText.length }
  else
    { st with
      currentChunk := testChunk
      currentOffset := st.currentOffset + sentence.length + 1 }

/-- `splitBySentence(text, maxTokens, overlap)` (chunking.ts lines 172-219). -/
def splitBySentence (bpe : BPE) (text : String) (maxTokens overlap : Nat) :
    List TextChunk :=
  let st := (splitSentences text).foldl (sentenceStep bpe maxTokens overlap)
    ⟨[], "", 0, 0⟩
  if st.currentChunk = "" then st.chunks
  else st.chunks ++ [⟨st.chunks.length, st.currentChunk,
    countTokens bpe st.currentChunk, st.chunkStartOffset, (text.length : Int)⟩]

/-- `paragraph.split(/(?<=[.!?。！？])\s*/).length > 1` (chunking.ts lines
268-270): with `\s*` the separator may be empty, so the split produces more
than one piece exactly when some sentence ender occurs before the final
character. -/
def hasInteriorEnder : List Char → Bool
  | [] => false
  | [_] => false
  | c :: rest => isSentenceEnder c || hasInteriorEnder rest

/-- `splitLongParagraph(paragraph, maxTokens, overlap)` (chunking.ts lines
262-276): try sentence boundaries first, otherwise fall back to fixed-width
slicing. -/
def splitLongParagraph (bpe : BPE) (fuel : Nat) (paragraph : String)
    (maxTokens overlap : Nat) : Option (List TextChunk) :=
  if hasInteriorEnder paragraph.data then
    some (splitBySentence bpe paragraph maxTokens overlap)
  else
    splitFixed bpe fuel paragraph maxTokens overlap

/-- `text.split(/\n{2,}/)` (chunking.ts line 93): the separators are the
maximal runs of at least two newline characters. -/
def splitParagraphsGo : List Char → List Char → List String
  | [], acc => [⟨acc.reverse⟩]
  | '\n' :: '\n' :: rest, acc =>
    (⟨acc.reverse⟩ : String) ::
      splitParagraphsGo (rest.dropWhile (· = '\n')) []
  | c :: rest, acc => splitParagraphsGo rest (c :: acc)
termination_by l _ => l.length
decreasing_by
  · exact Nat.lt_succ_of_le (Nat.le_succ_of_le
      (List.dropWhile_sublist (· = '\n')).length_le)
  · exact Nat.lt_succ_self rest.length

/-- `text.split(/\n{2,}/)` as a function on strings. -/
def splitParagraphs (text : String) : List String :=
  splitParagraphsGo text.data []

/-- One iteration of the `splitByParagraph` loop (chunking.ts lines 100-153),
in the `Option` monad because the long-paragraph path may reach the
`splitFixed` loop.  The final `currentOffset += paragraph.length + 2` of the
source loop body is folded into each branch. -/
def paragraphStep (bpe : BPE) (fuel maxTokens overlap : Nat) (st : AccState)
    (rawParagraph : String) : Option AccState :=
  if rawParagraph = "" then some st
  else
    let paragraph := jsTrim rawParagraph
    if paragraph = "" then some { st with currentOffset := st.currentOffset + 2 }
    else
      let testChunk :=
        if st.currentChunk = "" then paragraph
        else st.currentChunk ++ "\n\n" ++ paragraph
      let testTokens := countTokens bpe testChunk
      if testTokens > maxTokens then
        if st.currentChunk ≠ "" then
          let chunks := st.chunks ++ [⟨st.chunks.length, st.currentChunk,
            countTokens bpe st.currentChunk, st.chunkStartOffset,
            st.currentOffset⟩]
          let overlapText := getOverlapText bpe st.currentChunk overlap
          some { chunks
                 currentChunk := if overlapText = "" then paragraph
                   else overlapText ++ "\n\n" ++ paragraph
                 currentOffset := st.currentOffset + paragraph.length + 2
                 chunkStartOffset := st.currentOffset - overlapText.length }
        else
          match splitLongParagraph bpe fuel paragraph maxTokens overlap with
          | none => none
          | some sps =>
            let shifted := sps.enum.map fun p =>
              { index := st.chunks.length + p.1
                text := p.2.text
                tokenCount := p.2.tokenCount
                startOffset := st.currentOffset + p.2.startOffset
                endOffset := st.currentOffset + p.2.endOffset : TextChunk }
            some { chunks := st.chunks ++ shifted
                   currentChunk := ""
                   currentOffset := st.currentOffset + paragraph.length + 2
                   chunkStartOffset := st.currentOffset + paragraph.length + 2 }
      else
        some { st with
               currentChunk := testChunk
               currentOffset := st.currentOffset + paragraph.length + 2 }

/-- `splitByParagraph(text, maxTokens, overlap)` (chunking.ts lines 87-167). -/
def splitByParagraph (bpe : BPE) (fuel : Nat) (text : String)
    (maxTokens overlap : Nat) : Option (List TextChunk) := do
  let st ← (splitParagraphs text).foldlM
    (paragraphStep bpe fuel maxTokens overlap) ⟨[], "", 0, 0⟩
  if st.currentChunk = "" then pure st.chunks
  else pure (st.chunks ++ [⟨st.chunks.length, st.currentChunk,
    countTokens bpe st.currentChunk, st.chunkStartOffset, (text.length : Int)⟩])

/-- The `strategy` option of `splitIntoChunks` (chunking.ts line 12). -/
inductive ChunkStrategy
  | paragraph
  | sentence
  | fixed
deriving DecidableEq, Repr

/-- `splitIntoChunks(text, options)` (chunking.ts lines 41-80).  The source
defaults are `maxTokens = 3500`, `overlap = 200`, `strategy = "paragraph"`;
here all three are passed explicitly.  The `default` arm of the source
`switch` coincides with the `paragraph` arm. -/
def splitIntoChunks (bpe : BPE) (fuel : Nat) (text : String)
    (maxTokens overlap : Nat) (strategy : ChunkStrategy) :
    Option (List TextChunk) :=
  if text = "" then some []
  else
    let totalTokens := countTokens bpe text
    if totalTokens ≤ maxTokens then
      some [⟨0, text, totalTokens, 0, (text.length : Int)⟩]
    else
      match strategy with
      | .paragraph => splitByParagraph bpe fuel text maxTokens overlap
      | .sentence => some (splitBySentence bpe text maxTokens overlap)
      | .fixed => splitFixed bpe fuel text maxTokens overlap

/-! ## Outline builder (`src/lib/ai/outline.ts`) -/

/-- `s.slice(0, n)` for a nonnegative `n`. -/
def strTake (s : String) (n : Nat) : String := ⟨s.data.take n⟩

/-- `s.slice(a, b)` for nonnegative `a`, `b` (as used on character ranges):
the characters from `a` (inclusive) to `b` (exclusive), empty when `a ≥ b`,
clamped at the end of the string. -/
def strSlice (s : String) (a b : Nat) : String := ⟨(s.data.take b).drop a⟩

/-- Return the first index at which `pat` occurs in the scanned list, `i`
being the index of the list's head in the original string. -/
def strIndexOfAux (pat : List Char) : List Char → Nat → Option Nat
  | [], i => if pat.isPrefixOf ([] : List Char) then some i else none
  | s@(_ :: t), i => if pat.isPrefixOf s then some i else strIndexOfAux pat t (i + 1)

/-- JS `fullText.indexOf(marker)`; `none` models the `-1` not-found result.
Like the JS original, searching for the empty string yields index 0. -/
def strIndexOf (s pat : String) : Option Nat := strIndexOfAux pat.data s.data 0

/-- `RawChapterData` (outline.ts lines 356-361), the shape of one chapter in
the parsed LLM response (the optional `endMarker` is never read). -/
structure RawChapterData where
  title : String
  summary : String
  startMarker : String
deriving Repr, DecidableEq

/-- The `textRange` component of `ChapterInfo` (outline.ts lines 335-338);
the source field `end` is called `stop` here because `end` is a Lean
keyword. -/
structure TextRange where
  start : Nat
  stop : Nat
deriving Repr, DecidableEq

/-- `ChapterInfo` (outline.ts lines 321-339). -/
structure ChapterInfo where
  index : Nat
  title : String
  summary : String
  startPage : Nat
  endPage : Nat
  estimatedTokens : Nat
  textRange : TextRange
deriving Repr, DecidableEq

/-- `DocumentOutline` (outline.ts lines 344-351). -/
structure DocumentOutline where
  totalPages : Nat
  totalTokens : Nat
  chapters : List ChapterInfo
deriving Repr, DecidableEq

/-- Marker resolution for one chapter (outline.ts lines 474-489): exact
search for the trimmed `startMarker`, then a retry with its 50-character
slice when it is longer than 50 characters, then a retry with its
20-character slice when it is longer than 20 characters. -/
def resolveMarker (fullText : String) (chapter : RawChapterData) : Option Nat :=
  let marker := jsTrim chapter.startMarker
  match strIndexOf fullText marker with
  | some p => some p
  | none =>
    match (if marker.length > 50 then strIndexOf fullText (strTake marker 50)
           else none) with
    | some p => some p
    | none =>
      if marker.length > 20 then strIndexOf fullText (strTake marker 20)
      else none

/-- An entry of the `positions` array (outline.ts line 469): the chapter's
original index, its resolved start offset, and its title and summary. -/
structure ChapterPos where
  index : Nat
  start : Nat
  title : String
  summary : String
deriving Repr, DecidableEq

/-- The resolution loop (outline.ts lines 471-499): chapters whose marker
cannot be located are silently dropped. -/
def resolvePositions (fullText : String) (rawChapters : List RawChapterData) :
    List ChapterPos :=
  rawChapters.enum.filterMap fun p =>
    (resolveMarker fullText p.2).map fun s => ⟨p.1, s, p.2.title, p.2.summary⟩

/-- Insert into a list sorted by the natural-number key, before the first
element with a key at least as large (a stable insertion). -/
def insertSortedBy (key : α → Nat) (x : α) : List α → List α
  | [] => [x]
  | y :: ys => if key x ≤ key y then x :: y :: ys else y :: insertSortedBy key x ys

/-- Stable sort by a natural-number key; models the JS stable
`arr.sort((a, b) => key(a) - key(b))`. -/
def sortBy (key : α → Nat) : List α → List α
  | [] => []
  | x :: xs => insertSortedBy key x (sortBy key xs)

/-- The chapter-building loop over the sorted positions (outline.ts lines
505-533): each chapter's `end` is the next position's `start`, or the
document length for the last; pages are estimated as
`floor(start / charsPerPage) + 1` and `ceil(end / charsPerPage)`; the token
estimate re-tokenizes the resolved text range.  `i` is the next index to
assign (`0` at the top-level call). -/
def chaptersFromPositions (bpe : BPE) (fullText : String) (charsPerPage : Nat) :
    Nat → List ChapterPos → List ChapterInfo
  | _, [] => []
  | i, p :: rest =>
    let endPos := match rest with
      | [] => fullText.length
      | q :: _ => q.start
    { index := i
      title := p.title
      summary := p.summary
      startPage := p.start / charsPerPage + 1
      endPage := (endPos + charsPerPage - 1) / charsPerPage
      estimatedTokens := countTokens bpe (strSlice fullText p.start endPos)
      textRange := ⟨p.start, endPos⟩ } ::
        chaptersFromPositions bpe fullText charsPerPage (i + 1) rest

/-- `buildChapterInfo(fullText, rawChapters, { charsPerPage })` (outline.ts
lines 460-552): resolve markers, sort the resolved positions by start
offset, build the chapter list, and substitute the single synthetic
full-document chapter when nothing resolved. -/
def buildChapterInfo (bpe : BPE) (fullText : String)
    (rawChapters : List RawChapterData) (charsPerPage : Nat) :
    List ChapterInfo :=
  let positions := sortBy ChapterPos.start (resolvePositions fullText rawChapters)
  let chapters := chaptersFromPositions bpe fullText charsPerPage 0 positions
  if chapters.length = 0 then
    [{ index := 0
       title := "Full Document"
       summary := "The entire document content"
       startPage := 1
       endPage := (fullText.length + charsPerPage - 1) / charsPerPage
       estimatedTokens := countTokens bpe fullText
       textRange := ⟨0, fullText.length⟩ }]
  else chapters

/-- The pure tail of `generateOutline(text, options)` (outline.ts lines
395-453): the LLM round trip is abstracted as the `rawChapters` oracle (the
`chapters` array of the parsed JSON response); the result caps the raw list
at `maxChapters` and assembles the outline.  Source defaults:
`charsPerPage = 2000`, `maxChapters = 15`. -/
def generateOutlineModel (bpe : BPE) (text : String)
    (rawChapters : List RawChapterData) (charsPerPage maxChapters : Nat) :
    DocumentOutline :=
  { totalPages := (text.length + charsPerPage - 1) / charsPerPage
    totalTokens := countTokens bpe text
    chapters := buildChapterInfo bpe text (rawChapters.take maxChapters) charsPerPage }

/-- `extractSelectedChaptersText(fullText, outline, selectedIndices)`
(outline.ts lines 562-580): keep the chapters whose `index` is in
`selectedIndices`, sort them by `textRange.start`, slice each range out of
the full text and join with `"\n\n---\n\n"`. -/
def extractSelectedChaptersText (fullText : String) (outline : DocumentOutline)
    (selectedIndices : List Nat) : String :=
  let selectedChapters :=
    outline.chapters.filter fun ch => selectedIndices.contains ch.index
  let sorted := sortBy (fun ch => ch.textRange.start) selectedChapters
  String.intercalate "\n\n---\n\n"
    (sorted.map fun ch => strSlice fullText ch.textRange.start ch.textRange.stop)

/-! ## Flashcards and the merge/dedupe step
(`src/inngest/functions.ts`, `generateFromOutline` step "save-to-database",
lines 459-471). -/

/-- A flashcard value: `{ front, back }`. -/
structure Flashcard where
  front : String
  back : String
deriving DecidableEq, Repr

/-- The dedup key: `card.front.toLowerCase().trim()` (functions.ts line 466). -/
def dedupKey (c : Flashcard) : String := jsTrim (jsToLower c.front)

/-- One iteration of the dedup loop (functions.ts lines 465-470): insert the
card into the accumulated unique list unless a card with the same normalized
`front` key is already present (`uniqueCards.has(key)` — first occurrence
wins, insertion order preserved, exactly as a JS `Map`). -/
def dedupStep (m : List Flashcard) (c : Flashcard) : List Flashcard :=
  if dedupKey c ∈ m.map dedupKey then m else m ++ [c]

/-- The whole dedup pass: fold the loop over the flattened card list, then
read the `Map`'s values in insertion order (functions.ts lines 461-471). -/
def dedup (cards : List Flashcard) : List Flashcard :=
  cards.foldl dedupStep []

/-! ## Task coordinator steps (`src/inngest/functions.ts`)

The Inngest steps are modelled as explicit state transitions on the database
rows they touch.  Fallible collaborators (storage parsing, the LLM) are
oracle arguments of type `Except`; a step that throws aborts the run, and
the model then returns the database state as it stands at the abort — the
repository registers no failure handler (`onFailure`) for any of its three
functions, so nothing further is written after an aborted step. -/

/-- The user's `creditsBalance` row (the fields the debit step touches). -/
structure CreditsBalanceRow where
  balance : ℚ
  totalSpent : ℚ
deriving DecidableEq

/-- A `creditsTransaction` row as inserted by the debit steps; `taskId` is
the task id recorded in the transaction's `metadata`. -/
structure CreditsTransactionRow where
  userId : String
  amount : ℚ
  creditAccount : String
  taskId : String
deriving DecidableEq

/-- The billing-side database state for one user: the result of
`db.query.creditsBalance.findFirst` (`none` models a missing row) and the
transaction ledger. -/
structure BillingState where
  creditsBalance : Option CreditsBalanceRow
  transactions : List CreditsTransactionRow
deriving DecidableEq

/-- The `deduct-credits` step of `generateFromOutline` (functions.ts lines
375-403; the step of `generateFlashcards` at lines 66-97 is the same logic):
read the balance, throw `"Insufficient credits"` when the row is missing or
too small, otherwise decrement the balance, increment `totalSpent` and append
a consumption transaction carrying the task id in its metadata.  Nothing in
the step consults the ledger for an existing debit of the same task. -/
def deductCreditsStep (userId taskId : String) (creditsCost : ℚ)
    (st : BillingState) : Except String BillingState :=
  match st.creditsBalance with
  | none => .error "Insufficient credits"
  | some balance =>
    if balance.balance < creditsCost then .error "Insufficient credits"
    else .ok
      { creditsBalance := some
          { balance := balance.balance - creditsCost
            totalSpent := balance.totalSpent + creditsCost }
        transactions := st.transactions ++
          [{ userId
             amount := creditsCost
             creditAccount := "flashcard_generation"
             taskId }] }

/-- The `generationTask` row (the fields the embedded steps read or write). -/
structure TaskRow where
  status : String
  errorMessage : Option String
  deckId : Option String
  cardCount : Option Nat
  creditsCost : Option ℚ
  documentText : Option String
  documentOutline : Option DocumentOutline
  totalChunks : Option Nat
  completedChunks : Option Nat
deriving DecidableEq

/-- The per-chunk wrapper inside the `generate-all-chunks` step (functions.ts
lines 435-452): the flashcard-generation call for one chunk either returns
its cards or throws; a thrown error is caught and the chunk contributes the
empty card list. -/
def chunkOutcomeCards (outcome : Except String (List Flashcard)) :
    List Flashcard :=
  match outcome with
  | .ok cards => cards
  | .error _ => []

/-- The `generate-all-chunks` step (functions.ts lines 433-456): one outcome
per chunk, in chunk-index order (`Promise.all` preserves array order), each
wrapped as above, then flattened (`results.flat()`). -/
def generateAllChunksStep (outcomes : List (Except String (List Flashcard))) :
    List Flashcard :=
  (outcomes.map chunkOutcomeCards).flatten

/-- Steps 5 and 6 of `generateFromOutline` (functions.ts lines 433-520)
applied to the per-chunk generation outcomes: flatten the caught per-chunk
results, dedupe, and unconditionally mark the task `completed` with the
freshly created deck and the deduped card count (the deck/card inserts and
progress updates are elided, `deckId` stands for the generated `nanoid()`). -/
def generationPhaseFromChunks (task : TaskRow) (deckId : String)
    (outcomes : List (Except String (List Flashcard))) :
    TaskRow × List Flashcard :=
  let allFlashcards := generateAllChunksStep outcomes
  let dedupedCards := dedup allFlashcards
  ({ task with
     status := "completed"
     deckId := some deckId
     cardCount := some dedupedCards.length }, dedupedCards)

/-- `analyzeDocument` (functions.ts lines 213-321) as a state transition:
`parseResult` is the outcome of the `download-and-parse` step's
`parseFileFromStorage` call and `outlineChapters` the outcome of the LLM
round trip of `generate-outline` (its parsed `chapters` array).  Step 1 sets
the task to `analyzing`; a step that throws aborts the run with the database
as already written — no handler in the repository records a failure on the
task row.  Source constants: `charsPerPage = 2000`, `maxChapters = 15`. -/
def analyzeDocument (bpe : BPE) (parseResult : Except String String)
    (outlineChapters : Except String (List RawChapterData)) (userId : String)
    (taskId : String) (task : TaskRow) (billing : BillingState) :
    TaskRow × BillingState :=
  let task1 := { task with status := "analyzing" }
  match parseResult with
  | .error _ => (task1, billing)
  | .ok documentText =>
    let totalTokens := countTokens bpe documentText
    let cost := calculateIndexingCost totalTokens
    match billing.creditsBalance with
    | none => (task1, billing)
    | some balance =>
      if balance.balance < cost then (task1, billing)
      else
        let billing' : BillingState :=
          { creditsBalance := some
              { balance := balance.balance - cost
                totalSpent := balance.totalSpent + cost }
            transactions := billing.transactions ++
              [{ userId
                 amount := cost
                 creditAccount := "document_indexing"
                 taskId }] }
        let task2 := { task1 with creditsCost := some cost }
        match outlineChapters with
        | .error _ => (task2, billing')
        | .ok rawChapters =>
          let outline := generateOutlineModel bpe documentText rawChapters 2000 15
          ({ task2 with
             status := "outline_ready"
             documentOutline := some outline
             documentText := some documentText }, billing')

/-! ## Theorems -/

/-- `natLog2Aux` brackets its argument between consecutive powers of two
whenever the fuel suffices. -/
theorem natLog2Aux_spec : ∀ (fuel n : Nat), n ≤ fuel → n ≠ 0 →
    2 ^ natLog2Aux fuel n ≤ n ∧ n < 2 ^ (natLog2Aux fuel n + 1) := by
  intro fuel
  induction fuel with
  | zero => intro n hn h0; omega
  | succ fuel ih =>
    intro n hn h0
    simp only [natLog2Aux]
    split
    · next h2 =>
      obtain ⟨hl, hr⟩ := ih (n / 2) (by omega) (by omega)
      rw [pow_succ] at hr
      constructor
      · rw [pow_succ]
        omega
      · rw [pow_succ, pow_succ]
        omega
    · next h2 =>
      simp only [pow_succ, pow_zero]
      omega

/-- `natLog2 n` is the floor of `log₂ n` for positive `n`. -/
theorem natLog2_spec (n : Nat) (h0 : n ≠ 0) :
    2 ^ natLog2 n ≤ n ∧ n < 2 ^ (natLog2 n + 1) :=
  natLog2Aux_spec n n (Nat.le_refl n) h0

/-- A positive rational lies strictly between the powers of two one below
and one above the difference of the numerator's and denominator's base-2
logarithms. -/
theorem ilog2_core (q : ℚ) (hq : 0 < q) :
    (2 : ℚ) ^ ((natLog2 q.num.natAbs : ℤ) - (natLog2 q.den : ℤ) - 1) < q ∧
    q < (2 : ℚ) ^ ((natLog2 q.num.natAbs : ℤ) - (natLog2 q.den : ℤ) + 1) := by
  have hnum : 0 < q.num := Rat.num_pos.mpr hq
  have hn0 : q.num.natAbs ≠ 0 := by
    simp only [ne_eq, Int.natAbs_eq_zero]
    omega
  have hd0 : q.den ≠ 0 := by
    have := q.den_pos
    omega
  obtain ⟨ha1, ha2⟩ := natLog2_spec q.num.natAbs hn0
  obtain ⟨hb1, hb2⟩ := natLog2_spec q.den hd0
  have hdQ : (0 : ℚ) < (q.den : ℚ) := by exact_mod_cast q.den_pos
  have hqeq : q = (q.num.natAbs : ℚ) / (q.den : ℚ) := by
    have habs : (q.num.natAbs : ℤ) = q.num := Int.natAbs_of_nonneg hnum.le
    have h1 : ((q.num.natAbs : ℕ) : ℚ) = (q.num : ℚ) := by
      calc ((q.num.natAbs : ℕ) : ℚ) = (((q.num.natAbs : ℕ) : ℤ) : ℚ) := by
            rw [Int.cast_natCast]
        _ = (q.num : ℚ) := by rw [habs]
    rw [h1, Rat.num_div_den]
  have hA1 : (2 : ℚ) ^ (natLog2 q.num.natAbs) ≤ (q.num.natAbs : ℚ) := by
    exact_mod_cast ha1
  have hA2 : (q.num.natAbs : ℚ) < 2 ^ (natLog2 q.num.natAbs + 1) := by
    exact_mod_cast ha2
  have hB1 : (2 : ℚ) ^ (natLog2 q.den) ≤ (q.den : ℚ) := by exact_mod_cast hb1
  have hB2 : (q.den : ℚ) < 2 ^ (natLog2 q.den + 1) := by exact_mod_cast hb2
  constructor
  · have key : (2 : ℚ) ^ ((natLog2 q.num.natAbs : ℤ) - (natLog2 q.den : ℤ) - 1)
        * (q.den : ℚ) < (q.num.natAbs : ℚ) := by
      calc (2 : ℚ) ^ ((natLog2 q.num.natAbs : ℤ) - (natLog2 q.den : ℤ) - 1)
            * (q.den : ℚ)
          < (2 : ℚ) ^ ((natLog2 q.num.natAbs : ℤ) - (natLog2 q.den : ℤ) - 1)
            * (2 : ℚ) ^ (natLog2 q.den + 1) := by
            exact mul_lt_mul_of_pos_left hB2 (by positivity)
        _ = (2 : ℚ) ^ (natLog2 q.num.natAbs) := by
            rw [← zpow_natCast (2 : ℚ) (natLog2 q.den + 1),
              ← zpow_add₀ (two_ne_zero), ← zpow_natCast (2 : ℚ)
                (natLog2 q.num.natAbs)]
            congr 1
            push_cast
            ring
        _ ≤ (q.num.natAbs : ℚ) := hA1
    have hdiv := (lt_div_iff hdQ).mpr key
    rw [← hqeq] at hdiv
    exact hdiv
  · have key : (q.num.natAbs : ℚ)
        < (2 : ℚ) ^ ((natLog2 q.num.natAbs : ℤ) - (natLog2 q.den : ℤ) + 1)
          * (q.den : ℚ) := by
      calc (q.num.natAbs : ℚ)
          < (2 : ℚ) ^ (natLog2 q.num.natAbs + 1) := hA2
        _ = (2 : ℚ) ^ ((natLog2 q.num.natAbs : ℤ) - (natLog2 q.den : ℤ) + 1)
            * (2 : ℚ) ^ (natLog2 q.den) := by
            rw [← zpow_natCast (2 : ℚ) (natLog2 q.num.natAbs + 1),
              ← zpow_natCast (2 : ℚ) (natLog2 q.den),
              ← zpow_add₀ (two_ne_zero)]
            congr 1
            push_cast
            ring
        _ ≤ (2 : ℚ) ^ ((natLog2 q.num.natAbs : ℤ) - (natLog2 q.den : ℤ) + 1)
            * (q.den : ℚ) := by
            exact mul_le_mul_of_nonneg_left hB1 (by positivity)
    have hdiv := (div_lt_iff hdQ).mpr key
    rw [← hqeq] at hdiv
    exact hdiv

/-- `ilog2` brackets every positive rational:
`2 ^ ilog2 q ≤ q < 2 ^ (ilog2 q + 1)`. -/
theorem ilog2_spec (q : ℚ) (hq : 0 < q) :
    (2 : ℚ) ^ ilog2 q ≤ q ∧ q < (2 : ℚ) ^ (ilog2 q + 1) := by
  obtain ⟨hlow, hup⟩ := ilog2_core q hq
  simp only [ilog2]
  split
  · next hcase =>
    constructor
    · exact le_of_lt hlow
    · rw [Int.sub_add_cancel]
      exact hcase
  · next hcase =>
    exact ⟨not_lt.mp hcase, hup⟩

/-- Round-to-nearest never moves a value down by more than one half. -/
theorem rhe_ge (m : ℚ) : m - 1 / 2 ≤ (rhe m : ℚ) := by
  have h1 : (⌊m⌋ : ℚ) ≤ m := Int.floor_le m
  have h2 : m < ⌊m⌋ + 1 := Int.lt_floor_add_one m
  unfold rhe
  split
  · next h => linarith
  · split
    · next h => push_cast; linarith
    · split
      · linarith
      · push_cast; linarith

/-- Round-to-nearest never moves a value up by more than one half. -/
theorem rhe_le (m : ℚ) : (rhe m : ℚ) ≤ m + 1 / 2 := by
  have h1 : (⌊m⌋ : ℚ) ≤ m := Int.floor_le m
  have h2 : m < ⌊m⌋ + 1 := Int.lt_floor_add_one m
  unfold rhe
  split
  · next h => linarith
  · split
    · next h => push_cast; linarith
    · next h h' =>
      have heq : m - ⌊m⌋ = 1 / 2 := le_antisymm (not_lt.mp h') (not_lt.mp h)
      split
      · linarith
      · push_cast; linarith

/-- Round-to-nearest (ties to even) is monotone. -/
theorem rhe_mono (x y : ℚ) (h : x ≤ y) : rhe x ≤ rhe y := by
  by_contra hlt
  push_neg at hlt
  have hc : (rhe y : ℚ) + 1 ≤ (rhe x : ℚ) := by exact_mod_cast hlt
  have h1 := rhe_le x
  have h2 := rhe_ge y
  have hxy : x = y := by linarith
  subst hxy
  exact absurd hlt (lt_irrefl _)

/-- `flPos` keeps a positive value inside its binade. -/
theorem flPos_bounds (q : ℚ) (hq : 0 < q) :
    (2 : ℚ) ^ ilog2 q ≤ flPos q ∧ flPos q ≤ (2 : ℚ) ^ (ilog2 q + 1) := by
  obtain ⟨hlb, hub⟩ := ilog2_spec q hq
  have hs : (0 : ℚ) < (2 : ℚ) ^ (ilog2 q - 52) := by positivity
  have h52 : (2 : ℚ) ^ ilog2 q
      = (2 : ℚ) ^ (52 : ℕ) * (2 : ℚ) ^ (ilog2 q - 52) := by
    rw [← zpow_natCast (2 : ℚ) 52, ← zpow_add₀ (two_ne_zero)]
    congr 1
    push_cast
    ring
  have h53 : (2 : ℚ) ^ (ilog2 q + 1)
      = (2 : ℚ) ^ (53 : ℕ) * (2 : ℚ) ^ (ilog2 q - 52) := by
    rw [← zpow_natCast (2 : ℚ) 53, ← zpow_add₀ (two_ne_zero)]
    congr 1
    push_cast
    ring
  have hm_lb : (2 : ℚ) ^ (52 : ℕ) ≤ q / (2 : ℚ) ^ (ilog2 q - 52) := by
    rw [le_div_iff hs, ← h52]
    exact hlb
  have hm_ub : q / (2 : ℚ) ^ (ilog2 q - 52) < (2 : ℚ) ^ (53 : ℕ) := by
    rw [div_lt_iff hs, ← h53]
    exact hub
  have hr_lb : ((2 : ℤ) ^ (52 : ℕ) : ℚ)
      ≤ (rhe (q / (2 : ℚ) ^ (ilog2 q - 52)) : ℚ) := by
    have h1 := rhe_ge (q / (2 : ℚ) ^ (ilog2 q - 52))
    have h2 : ((2 : ℤ) ^ (52 : ℕ) - 1 : ℤ)
        < rhe (q / (2 : ℚ) ^ (ilog2 q - 52)) := by
      have : (((2 : ℤ) ^ (52 : ℕ) - 1 : ℤ) : ℚ)
          < (rhe (q / (2 : ℚ) ^ (ilog2 q - 52)) : ℚ) := by
        push_cast
        linarith
      exact_mod_cast this
    have h3 : ((2 : ℤ) ^ (52 : ℕ) - 1) + 1
        ≤ rhe (q / (2 : ℚ) ^ (ilog2 q - 52)) := h2
    have h4 : (2 : ℤ) ^ (52 : ℕ) ≤ rhe (q / (2 : ℚ) ^ (ilog2 q - 52)) := by
      omega
    exact_mod_cast h4
  have hr_ub : (rhe (q / (2 : ℚ) ^ (ilog2 q - 52)) : ℚ)
      ≤ ((2 : ℤ) ^ (53 : ℕ) : ℚ) := by
    have h1 := rhe_le (q / (2 : ℚ) ^ (ilog2 q - 52))
    have h2 : rhe (q / (2 : ℚ) ^ (ilog2 q - 52))
        < (2 : ℤ) ^ (53 : ℕ) + 1 := by
      have : (rhe (q / (2 : ℚ) ^ (ilog2 q - 52)) : ℚ)
          < ((2 : ℤ) ^ (53 : ℕ) + 1 : ℤ) := by
        push_cast
        linarith
      exact_mod_cast this
    have h3 : rhe (q / (2 : ℚ) ^ (ilog2 q - 52)) ≤ (2 : ℤ) ^ (53 : ℕ) := by
      omega
    exact_mod_cast h3
  constructor
  · unfold flPos
    rw [h52]
    apply mul_le_mul_of_nonneg_right _ hs.le
    calc (2 : ℚ) ^ (52 : ℕ) = ((2 : ℤ) ^ (52 : ℕ) : ℚ) := by push_cast; ring
      _ ≤ _ := hr_lb
  · unfold flPos
    rw [h53]
    apply mul_le_mul_of_nonneg_right _ hs.le
    calc (rhe (q / (2 : ℚ) ^ (ilog2 q - 52)) : ℚ)
        ≤ ((2 : ℤ) ^ (53 : ℕ) : ℚ) := hr_ub
      _ = (2 : ℚ) ^ (53 : ℕ) := by push_cast; ring

/-- `flPos` is monotone on positive rationals. -/
theorem flPos_mono (p q : ℚ) (hp : 0 < p) (hpq : p ≤ q) :
    flPos p ≤ flPos q := by
  have hq : 0 < q := lt_of_lt_of_le hp hpq
  have hbp := flPos_bounds p hp
  have hbq := flPos_bounds q hq
  have hip := ilog2_spec p hp
  have hiq := ilog2_spec q hq
  have he : ilog2 p ≤ ilog2 q := by
    by_contra hcon
    push_neg at hcon
    have h2 : (2 : ℚ) ^ (ilog2 q + 1) ≤ (2 : ℚ) ^ ilog2 p :=
      (zpow_le_zpow_iff_right₀ (by norm_num)).mpr hcon
    have h3 : q < p := lt_of_lt_of_le hiq.2 (le_trans h2 hip.1)
    exact absurd hpq (not_le.mpr h3)
  rcases eq_or_lt_of_le he with heq | hlt
  · unfold flPos
    rw [← heq]
    have hs : (0 : ℚ) < (2 : ℚ) ^ (ilog2 p - 52) := by positivity
    have hmm : p / (2 : ℚ) ^ (ilog2 p - 52) ≤ q / (2 : ℚ) ^ (ilog2 p - 52) :=
      (div_le_div_iff_of_pos_right hs).mpr hpq
    apply mul_le_mul_of_nonneg_right _ hs.le
    exact_mod_cast rhe_mono _ _ hmm
  · have h3 : (2 : ℚ) ^ (ilog2 p + 1) ≤ (2 : ℚ) ^ ilog2 q :=
      (zpow_le_zpow_iff_right₀ (by norm_num)).mpr hlt
    linarith [hbp.2, hbq.1]

/-- Rounding to binary64 preserves nonnegativity. -/
theorem fl_nonneg (q : ℚ) (h : 0 ≤ q) : 0 ≤ fl q := by
  unfold fl
  split
  · exact le_refl 0
  · split
    · next h0 hneg => exact absurd hneg (not_lt.mpr h)
    · next h0 hneg =>
      have hq : 0 < q := lt_of_le_of_ne h (Ne.symm h0)
      have h1 := (flPos_bounds q hq).1
      have h2 : (0 : ℚ) < (2 : ℚ) ^ ilog2 q := by positivity
      linarith

/-- Rounding to binary64 preserves positivity. -/
theorem fl_pos (q : ℚ) (h : 0 < q) : 0 < fl q := by
  unfold fl
  rw [if_neg (ne_of_gt h), if_neg (not_lt.mpr h.le)]
  have h1 := (flPos_bounds q h).1
  have h2 : (0 : ℚ) < (2 : ℚ) ^ ilog2 q := by positivity
  linarith

/-- Rounding to binary64 is monotone on nonnegative rationals. -/
theorem fl_mono (p q : ℚ) (hp : 0 ≤ p) (hpq : p ≤ q) : fl p ≤ fl q := by
  rcases eq_or_lt_of_le hp with h0 | hpos
  · have hz : fl p = 0 := by
      rw [← h0]
      simp [fl]
    rw [hz]
    exact fl_nonneg q (h0 ▸ hpq)
  · have hq : 0 < q := lt_of_lt_of_le hpos hpq
    unfold fl
    rw [if_neg (ne_of_gt hpos), if_neg (not_lt.mpr hpos.le),
      if_neg (ne_of_gt hq), if_neg (not_lt.mpr hq.le)]
    exact flPos_mono p q hpos hpq

set_option maxRecDepth 40000 in
unseal Rat.mul Rat.inv Rat.add Rat.sub in
/-- C3 is refuted as stated: `calculateIndexingCost` computes the cost in
binary64 arithmetic, not in exact arithmetic.  At `totalTokens = 3750` the
double product `0.375 * 1.2` is `0.44999999999999996`, just below the exact
0.45, so the two-decimal truncation yields 0.44 — one cent below what the
claim's exact formula `max(MIN, truncate2dp(t / 10000 * 1.2))` prescribes
(0.45). -/
theorem calculateIndexingCost_not_exact :
    calculateIndexingCost 3750
      ≠ max MIN_CREDITS_COST
          ((⌊(3750 : ℚ) / 10000 * (6 / 5) * 100⌋ : ℚ) / 100) := by
  decide

set_option maxRecDepth 40000 in
unseal Rat.mul Rat.inv Rat.add Rat.sub in
/-- C3 (amended): `calculateIndexingCost` computes
`max(MIN_CREDITS_COST, truncate2dp(totalTokens / 10000 * 1.2))` in binary64
arithmetic, which at some inputs truncates one cent below the exact value
(`totalTokens = 3750` gives 0.44, not 0.45).  The remaining parts of the
claim hold of the binary64 computation: `calculateIndexingCost 0 =
MIN_CREDITS_COST`, the cost is non-decreasing in the token count, and
`totalTokens = 10500` gives raw 1.26 and cost exactly the binary64 value of
1.26 (truncated, not rounded). -/
theorem calculateIndexingCost_amended :
    calculateIndexingCost 0 = MIN_CREDITS_COST ∧
    (∀ p q : ℚ, 0 ≤ p → p ≤ q →
      calculateIndexingCost p ≤ calculateIndexingCost q) ∧
    calculateIndexingCost 10500 = fl (63 / 50) ∧
    calculateIndexingCost 3750 = fl (11 / 25) ∧ fl (11 / 25) < 45 / 100 := by
  refine ⟨by decide, ?_, by decide, by decide, by decide⟩
  intro p q hp hpq
  unfold calculateIndexingCost truncateToTwoDecimals jsMul jsDiv
  have hrate : (0 : ℚ) < INDEXING_RATE_PER_10K_TOKENS := by
    unfold INDEXING_RATE_PER_10K_TOKENS
    exact fl_pos (6 / 5) (by norm_num)
  have h1 : fl (p / 10000) ≤ fl (q / 10000) :=
    fl_mono _ _ (by positivity)
      ((div_le_div_iff_of_pos_right (by norm_num)).mpr hpq)
  have h1n : (0 : ℚ) ≤ fl (p / 10000) := fl_nonneg _ (by positivity)
  have h2 : fl (fl (p / 10000) * INDEXING_RATE_PER_10K_TOKENS)
      ≤ fl (fl (q / 10000) * INDEXING_RATE_PER_10K_TOKENS) :=
    fl_mono _ _ (mul_nonneg h1n hrate.le)
      (mul_le_mul_of_nonneg_right h1 hrate.le)
  have h2n : (0 : ℚ) ≤ fl (fl (p / 10000) * INDEXING_RATE_PER_10K_TOKENS) :=
    fl_nonneg _ (mul_nonneg h1n hrate.le)
  have h3 : fl (fl (fl (p / 10000) * INDEXING_RATE_PER_10K_TOKENS) * 100)
      ≤ fl (fl (fl (q / 10000) * INDEXING_RATE_PER_10K_TOKENS) * 100) :=
    fl_mono _ _ (by positivity)
      (mul_le_mul_of_nonneg_right h2 (by norm_num))
  have h3n : (0 : ℚ)
      ≤ fl (fl (fl (p / 10000) * INDEXING_RATE_PER_10K_TOKENS) * 100) :=
    fl_nonneg _ (by positivity)
  have h4 :
      (⌊fl (fl (fl (p / 10000) * INDEXING_RATE_PER_10K_TOKENS) * 100)⌋ : ℚ)
      ≤ ⌊fl (fl (fl (q / 10000) * INDEXING_RATE_PER_10K_TOKENS) * 100)⌋ := by
    exact_mod_cast Int.floor_le_floor h3
  have h4n : (0 : ℚ)
      ≤ (⌊fl (fl (fl (p / 10000) * INDEXING_RATE_PER_10K_TOKENS) * 100)⌋ : ℚ)
      := by
    exact_mod_cast Int.floor_nonneg.mpr h3n
  have h5 := fl_mono _ _ (by positivity)
    ((div_le_div_iff_of_pos_right (show (0:ℚ) < 100 by norm_num)).mpr h4)
  exact max_le_max (le_refl MIN_CREDITS_COST) h5

/-- Witness for `calculateIndexingCost_amended`: the monotonicity component
at the concrete pair `3 ≤ 7`. -/
theorem calculateIndexingCost_amended_witness :
    calculateIndexingCost 3 ≤ calculateIndexingCost 7 :=
  calculateIndexingCost_amended.2.1 3 7 (by norm_num) (by norm_num)

/-- C9: `splitIntoChunks` on the empty string returns the empty chunk list
(not an error), and on any nonempty text whose token count is at most
`maxTokens` it returns exactly one chunk whose text is the whole input, with
index 0, `startOffset` 0, and `endOffset` the text length — for every codec,
fuel, budget and strategy. -/
theorem splitIntoChunks_small_input :
    (∀ (bpe : BPE) (fuel maxTokens overlap : Nat) (strategy : ChunkStrategy),
      splitIntoChunks bpe fuel "" maxTokens overlap strategy = some []) ∧
    (∀ (bpe : BPE) (fuel : Nat) (text : String) (maxTokens overlap : Nat)
      (strategy : ChunkStrategy), text ≠ "" →
      countTokens bpe text ≤ maxTokens →
      splitIntoChunks bpe fuel text maxTokens overlap strategy
        = some [⟨0, text, countTokens bpe text, 0, (text.length : Int)⟩]) := by
  constructor
  · intro bpe fuel maxTokens overlap strategy
    simp [splitIntoChunks]
  · intro bpe fuel text maxTokens overlap strategy htext htok
    simp [splitIntoChunks, htext, htok]

/-- Witness for `splitIntoChunks_small_input`: the one-chunk case at the
concrete input `"abc"` with budget 5 under the default paragraph strategy. -/
theorem splitIntoChunks_small_input_witness :
    splitIntoChunks charBPE 5 "abc" 5 2 .paragraph
      = some [⟨0, "abc", countTokens charBPE "abc", 0, ("abc".length : Int)⟩] :=
  splitIntoChunks_small_input.2 charBPE 5 "abc" 5 2 .paragraph
    (by decide) (by decide)

/-- C2: per-chunk failure isolation in the generating phase — a chunk whose
flashcard-generation call throws contributes the empty card list to the
merge, the merged result is exactly the cards of the remaining chunks, and
the task still reaches `completed` (with the deduped cards of the other
chunks); the error never fails the task. -/
theorem generateFromOutline_chunk_isolation :
    ∀ (task : TaskRow) (deckId : String) (e : String)
      (pre post : List (Except String (List Flashcard))),
      generateAllChunksStep (pre ++ .error e :: post)
        = generateAllChunksStep pre ++ generateAllChunksStep post ∧
      (generationPhaseFromChunks task deckId (pre ++ .error e :: post)).1.status
        = "completed" ∧
      (generationPhaseFromChunks task deckId (pre ++ .error e :: post)).2
        = dedup (generateAllChunksStep pre ++ generateAllChunksStep post) := by
  intro task deckId e pre post
  have hmerge : generateAllChunksStep (pre ++ .error e :: post)
      = generateAllChunksStep pre ++ generateAllChunksStep post := by
    simp [generateAllChunksStep, chunkOutcomeCards]
  exact ⟨hmerge, rfl, by simp [generationPhaseFromChunks, hmerge]⟩

/-- The dedup loop only ever appends: the accumulator is a prefix of the
fold's result. -/
theorem foldl_dedupStep_grows (l : List Flashcard) :
    ∀ acc : List Flashcard, acc <+: l.foldl dedupStep acc := by
  induction l with
  | nil => intro acc; exact List.prefix_rfl
  | cons b l ih =>
    intro acc
    refine List.IsPrefix.trans ?_ (ih (dedupStep acc b))
    unfold dedupStep
    split
    · exact List.prefix_rfl
    · exact ⟨[b], rfl⟩

/-- The dedup fold's result is a sublist of the accumulator followed by the
input (so, from the empty accumulator, of the input itself). -/
theorem foldl_dedupStep_sublist (l : List Flashcard) :
    ∀ acc : List Flashcard, (l.foldl dedupStep acc).Sublist (acc ++ l) := by
  induction l with
  | nil => intro acc; simp
  | cons b l ih =>
    intro acc
    refine (ih (dedupStep acc b)).trans ?_
    unfold dedupStep
    split
    · exact List.Sublist.append_left (List.sublist_cons_self b l) acc
    · rw [List.append_assoc]
      exact List.Sublist.refl _

/-- The dedup fold preserves distinctness of the normalized keys in the
accumulator. -/
theorem foldl_dedupStep_nodup (l : List Flashcard) :
    ∀ acc : List Flashcard, (acc.map dedupKey).Nodup →
      ((l.foldl dedupStep acc).map dedupKey).Nodup := by
  induction l with
  | nil => intro acc h; exact h
  | cons b l ih =>
    intro acc h
    refine ih (dedupStep acc b) ?_
    unfold dedupStep
    split
    · exact h
    · next hmem =>
      rw [List.map_append]
      simp [List.nodup_append, h, hmem]

/-- Every input card's key is represented in the dedup fold's result. -/
theorem foldl_dedupStep_key_covered (l : List Flashcard) :
    ∀ (acc : List Flashcard) (c : Flashcard), c ∈ l →
      ∃ d ∈ l.foldl dedupStep acc, dedupKey d = dedupKey c := by
  induction l with
  | nil => intro acc c hc; cases hc
  | cons b l ih =>
    intro acc c hc
    rcases List.mem_cons.mp hc with rfl | hc
    · have hkey : ∃ d ∈ dedupStep acc c, dedupKey d = dedupKey c := by
        unfold dedupStep
        split
        · next hmem =>
          obtain ⟨d, hd, hdk⟩ := List.mem_map.mp hmem
          exact ⟨d, hd, hdk⟩
        · exact ⟨c, by simp, rfl⟩
      obtain ⟨d, hd, hdk⟩ := hkey
      exact ⟨d, (foldl_dedupStep_grows l (dedupStep acc c)).subset hd, hdk⟩
    · exact ih (dedupStep acc b) c hc

/-- A card preceded by no card with its key, and whose key is not in the
accumulator, survives the dedup fold. -/
theorem foldl_dedupStep_first (l₁ : List Flashcard) :
    ∀ (acc : List Flashcard) (c : Flashcard) (l₂ : List Flashcard),
      (∀ b ∈ l₁, dedupKey b ≠ dedupKey c) →
      dedupKey c ∉ acc.map dedupKey →
      c ∈ (l₁ ++ c :: l₂).foldl dedupStep acc := by
  induction l₁ with
  | nil =>
    intro acc c l₂ _ hacc
    have hstep : dedupStep acc c = acc ++ [c] := by
      unfold dedupStep
      exact if_neg hacc
    have : c ∈ dedupStep acc c := by simp [hstep]
    simpa using (foldl_dedupStep_grows l₂ (dedupStep acc c)).subset this
  | cons b l₁ ih =>
    intro acc c l₂ hne hacc
    have hb : dedupKey b ≠ dedupKey c := hne b (by simp)
    have hacc' : dedupKey c ∉ (dedupStep acc b).map dedupKey := by
      unfold dedupStep
      split
      · exact hacc
      · rw [List.map_append]
        intro hmem
        rcases List.mem_append.mp hmem with hmem | hmem
        · exact hacc hmem
        · have hcb : dedupKey c = dedupKey b := by simpa using hmem
          exact hb hcb.symm
    simpa using ih (dedupStep acc b) c l₂ (fun x hx => hne x (by simp [hx])) hacc'

/-- C5: the save-step deduplication keys each card by its lower-cased,
trimmed `front`, keeps the first occurrence of each key in the flattened
chunk-index-ordered sequence, and discards every later card with the same
key regardless of its `back`: the result is an order-preserving sublist of
the input with pairwise-distinct keys that covers every input key, any card
with no earlier key-equal card survives, and merging `[{front:"X",back:"A"}]`
from an earlier chunk with `[{front:"x ",back:"B"}]` from a later chunk
yields exactly one card, with back `"A"`. -/
theorem dedup_spec :
    (∀ cards : List Flashcard, (dedup cards).Sublist cards) ∧
    (∀ cards : List Flashcard, ((dedup cards).map dedupKey).Nodup) ∧
    (∀ cards : List Flashcard, ∀ c ∈ cards,
      ∃ d ∈ dedup cards, dedupKey d = dedupKey c) ∧
    (∀ (l₁ l₂ : List Flashcard) (c : Flashcard),
      (∀ b ∈ l₁, dedupKey b ≠ dedupKey c) → c ∈ dedup (l₁ ++ c :: l₂)) ∧
    dedup ([⟨"X", "A"⟩] ++ [⟨"x ", "B"⟩]) = [⟨"X", "A"⟩] := by
  refine ⟨fun cards => ?_, fun cards => ?_, fun cards c hc => ?_,
    fun l₁ l₂ c h => ?_, by decide⟩
  · simpa using foldl_dedupStep_sublist cards []
  · exact foldl_dedupStep_nodup cards [] (by simp)
  · exact foldl_dedupStep_key_covered cards [] c hc
  · exact foldl_dedupStep_first l₁ [] c l₂ h (by simp)

/-- Witness for `dedup_spec`: the first-occurrence component at a concrete
two-card list with distinct keys. -/
theorem dedup_spec_witness :
    (⟨"q2", "a2"⟩ : Flashcard) ∈ dedup ([⟨"q1", "a1"⟩] ++ ⟨"q2", "a2"⟩ :: []) :=
  dedup_spec.2.2.2.1 [⟨"q1", "a1"⟩] [] ⟨"q2", "a2"⟩ (by decide)

/-- C10: `extractSelectedChaptersText` depends only on the set of selected
indices — two selections with the same members (in any order, with any
multiplicity) produce the identical string — and an index matching no
chapter is silently ignored. -/
theorem extractSelectedChaptersText_set_invariant :
    (∀ (fullText : String) (outline : DocumentOutline) (l₁ l₂ : List Nat),
      (∀ i, i ∈ l₁ ↔ i ∈ l₂) →
      extractSelectedChaptersText fullText outline l₁
        = extractSelectedChaptersText fullText outline l₂) ∧
    (∀ (fullText : String) (outline : DocumentOutline) (l : List Nat)
      (j : Nat), (∀ ch ∈ outline.chapters, ch.index ≠ j) →
      extractSelectedChaptersText fullText outline (j :: l)
        = extractSelectedChaptersText fullText outline l) := by
  constructor
  · intro fullText outline l₁ l₂ h
    unfold extractSelectedChaptersText
    have hfilter : outline.chapters.filter (fun ch => l₁.contains ch.index)
        = outline.chapters.filter (fun ch => l₂.contains ch.index) := by
      apply List.filter_congr
      intro ch _
      rw [Bool.eq_iff_iff, List.elem_iff, List.elem_iff]
      exact h ch.index
    rw [hfilter]
  · intro fullText outline l j h
    unfold extractSelectedChaptersText
    have hfilter : outline.chapters.filter (fun ch => (j :: l).contains ch.index)
        = outline.chapters.filter (fun ch => l.contains ch.index) := by
      apply List.filter_congr
      intro ch hch
      rw [Bool.eq_iff_iff, List.elem_iff, List.elem_iff]
      simp [h ch hch]
    rw [hfilter]

/-- The head of a stable insertion is either the inserted element or the
head of the original list. -/
theorem head_insertSortedBy (key : α → Nat) (x : α) :
    ∀ l : List α, (insertSortedBy key x l).head? = some x ∨
      (insertSortedBy key x l).head? = l.head? := by
  intro l
  cases l with
  | nil => left; rfl
  | cons y ys =>
    rw [insertSortedBy]
    split
    · left; rfl
    · right; rfl

/-- Stable insertion preserves sortedness by the key. -/
theorem chain_insertSortedBy (key : α → Nat) (x : α) :
    ∀ l : List α, l.Chain' (fun a b => key a ≤ key b) →
      (insertSortedBy key x l).Chain' (fun a b => key a ≤ key b) := by
  intro l
  induction l with
  | nil => intro _; simp [insertSortedBy]
  | cons y ys ih =>
    intro h
    rw [insertSortedBy]
    split
    · next hxy => exact List.chain'_cons.mpr ⟨hxy, h⟩
    · next hxy =>
      have hyx : key y ≤ key x := Nat.le_of_lt (Nat.lt_of_not_le hxy)
      refine List.chain'_cons'.mpr ⟨?_, ih h.tail⟩
      intro b hb
      rcases head_insertSortedBy key x ys with hh | hh
      · rw [hh] at hb
        cases hb
        exact hyx
      · rw [hh] at hb
        exact (List.chain'_cons'.mp h).1 b hb

/-- `sortBy` produces a list sorted by the key (the model of the JS stable
`sort((a, b) => key(a) - key(b))`). -/
theorem chain_sortBy (key : α → Nat) :
    ∀ l : List α, (sortBy key l).Chain' (fun a b => key a ≤ key b) := by
  intro l
  induction l with
  | nil => simp [sortBy]
  | cons x xs ih => exact chain_insertSortedBy key x (sortBy key xs) ih

/-- The chapter-building loop assigns consecutive indices starting at `i`. -/
theorem chaptersFromPositions_map_index (bpe : BPE) (fullText : String)
    (cpp : Nat) : ∀ (ps : List ChapterPos) (i : Nat),
    (chaptersFromPositions bpe fullText cpp i ps).map ChapterInfo.index
      = List.range' i ps.length := by
  intro ps
  induction ps with
  | nil => intro i; rfl
  | cons p rest ih =>
    intro i
    cases rest with
    | nil => simp [chaptersFromPositions, List.range']
    | cons q rest' =>
      simp only [chaptersFromPositions, List.map_cons, List.length_cons,
        List.range']
      exact congrArg (i :: ·) (ih (i + 1))

/-- The chapter-building loop copies the sorted positions' start offsets. -/
theorem chaptersFromPositions_map_start (bpe : BPE) (fullText : String)
    (cpp : Nat) : ∀ (ps : List ChapterPos) (i : Nat),
    (chaptersFromPositions bpe fullText cpp i ps).map
        (fun c => c.textRange.start) = ps.map ChapterPos.start := by
  intro ps
  induction ps with
  | nil => intro i; rfl
  | cons p rest ih =>
    intro i
    cases rest with
    | nil => simp [chaptersFromPositions]
    | cons q rest' =>
      simp only [chaptersFromPositions, List.map_cons]
      exact congrArg (p.start :: ·) (ih (i + 1))

/-- In the chapter-building loop, each chapter's `end` is the next chapter's
`start`. -/
theorem chaptersFromPositions_chain_link (bpe : BPE) (fullText : String)
    (cpp : Nat) : ∀ (ps : List ChapterPos) (i : Nat),
    (chaptersFromPositions bpe fullText cpp i ps).Chain'
      (fun a b => a.textRange.stop = b.textRange.start) := by
  intro ps
  induction ps with
  | nil => intro i; simp [chaptersFromPositions]
  | cons p rest ih =>
    intro i
    cases rest with
    | nil => simp [chaptersFromPositions]
    | cons q rest' =>
      simp only [chaptersFromPositions]
      exact List.chain'_cons.mpr ⟨rfl, ih (i + 1)⟩

/-- In the chapter-building loop, the last chapter's `end` is the document
length. -/
theorem chaptersFromPositions_last (bpe : BPE) (fullText : String)
    (cpp : Nat) : ∀ (ps : List ChapterPos) (i : Nat) (c : ChapterInfo),
    (chaptersFromPositions bpe fullText cpp i ps).getLast? = some c →
    c.textRange.stop = fullText.length := by
  intro ps
  induction ps with
  | nil => intro i c hc; cases hc
  | cons p rest ih =>
    intro i c hc
    cases rest with
    | nil =>
      have h := Option.some.inj hc
      rw [← h]
      rfl
    | cons q rest' => exact ih (i + 1) c hc

/-- C8: the chapters returned by `buildChapterInfo` carry strictly
increasing indices assigned contiguously from 0 (their index list is
`range`), their `textRange.start` values are non-decreasing, every chapter's
`textRange` end equals the next chapter's start, and the last chapter's end
is the document length. -/
theorem buildChapterInfo_ordering :
    ∀ (bpe : BPE) (fullText : String) (raw : List RawChapterData) (cpp : Nat),
      (buildChapterInfo bpe fullText raw cpp).map ChapterInfo.index
        = List.range (buildChapterInfo bpe fullText raw cpp).length ∧
      (buildChapterInfo bpe fullText raw cpp).Chain'
        (fun a b => a.textRange.start ≤ b.textRange.start) ∧
      (buildChapterInfo bpe fullText raw cpp).Chain'
        (fun a b => a.textRange.stop = b.textRange.start) ∧
      ∀ c : ChapterInfo,
        (buildChapterInfo bpe fullText raw cpp).getLast? = some c →
        c.textRange.stop = fullText.length := by
  intro bpe fullText raw cpp
  by_cases hc : (chaptersFromPositions bpe fullText cpp 0
      (sortBy ChapterPos.start (resolvePositions fullText raw))).length = 0
  · have hbc : buildChapterInfo bpe fullText raw cpp
        = [{ index := 0
             title := "Full Document"
             summary := "The entire document content"
             startPage := 1
             endPage := (fullText.length + cpp - 1) / cpp
             estimatedTokens := countTokens bpe fullText
             textRange := ⟨0, fullText.length⟩ }] := by
      simp [buildChapterInfo, hc]
    rw [hbc]
    refine ⟨rfl, by simp, by simp, ?_⟩
    intro c hcl
    cases hcl
    rfl
  · have hbc : buildChapterInfo bpe fullText raw cpp
        = chaptersFromPositions bpe fullText cpp 0
            (sortBy ChapterPos.start (resolvePositions fullText raw)) := by
      simp [buildChapterInfo, hc]
    rw [hbc]
    refine ⟨?_, ?_, chaptersFromPositions_chain_link ..,
      chaptersFromPositions_last bpe fullText cpp _ 0⟩
    · rw [chaptersFromPositions_map_index, List.range_eq_range']
      have hlen : (chaptersFromPositions bpe fullText cpp 0
          (sortBy ChapterPos.start (resolvePositions fullText raw))).length
          = (sortBy ChapterPos.start (resolvePositions fullText raw)).length := by
        have := congrArg List.length (chaptersFromPositions_map_index bpe
          fullText cpp (sortBy ChapterPos.start (resolvePositions fullText raw)) 0)
        simpa using this
      rw [hlen]
    · have hmap := chaptersFromPositions_map_start bpe fullText cpp
        (sortBy ChapterPos.start (resolvePositions fullText raw)) 0
      have hchain := chain_sortBy ChapterPos.start (resolvePositions fullText raw)
      have h1 : ((sortBy ChapterPos.start (resolvePositions fullText raw)).map
          ChapterPos.start).Chain' (· ≤ ·) := (List.chain'_map _).mpr hchain
      rw [← hmap] at h1
      exact (List.chain'_map _).mp h1

/-- Witness for `buildChapterInfo_ordering`: the last-chapter component at a
concrete document with one resolved marker. -/
theorem buildChapterInfo_ordering_witness :
    ∃ c : ChapterInfo,
      (buildChapterInfo charBPE "ab. cd" [⟨"c1", "s1", "ab"⟩] 2000).getLast?
        = some c ∧ c.textRange.stop = 6 := by
  refine ⟨⟨0, "c1", "s1", 1, 1, 6, ⟨0, 6⟩⟩, by decide, ?_⟩
  exact (buildChapterInfo_ordering charBPE "ab. cd" [⟨"c1", "s1", "ab"⟩]
    2000).2.2.2 _ (by decide)

/-- When no marker resolves, the resolution loop produces no positions. -/
theorem resolvePositions_eq_nil (text : String) (raw : List RawChapterData)
    (h : ∀ c ∈ raw, resolveMarker text c = none) :
    resolvePositions text raw = [] := by
  unfold resolvePositions
  rw [List.filterMap_eq_nil_iff]
  intro p hp
  rw [h p.2 (List.snd_mem_of_mem_enum hp)]
  rfl

/-- C7: the outline returned by `generateOutline` always contains at least
one chapter, for every input text and every raw LLM chapter list; and when
no start marker resolves in the text, the chapter list is exactly the single
synthetic full-document chapter with `textRange` `{start: 0, end: text
length}`. -/
theorem generateOutline_nonempty :
    (∀ (bpe : BPE) (text : String) (raw : List RawChapterData) (cpp mc : Nat),
      1 ≤ (generateOutlineModel bpe text raw cpp mc).chapters.length) ∧
    (∀ (bpe : BPE) (text : String) (raw : List RawChapterData) (cpp mc : Nat),
      (∀ c ∈ raw.take mc, resolveMarker text c = none) →
      (generateOutlineModel bpe text raw cpp mc).chapters
        = [{ index := 0
             title := "Full Document"
             summary := "The entire document content"
             startPage := 1
             endPage := (text.length + cpp - 1) / cpp
             estimatedTokens := countTokens bpe text
             textRange := ⟨0, text.length⟩ }]) := by
  constructor
  · intro bpe text raw cpp mc
    show 1 ≤ (buildChapterInfo bpe text (raw.take mc) cpp).length
    by_cases hc : (chaptersFromPositions bpe text cpp 0
        (sortBy ChapterPos.start (resolvePositions text (raw.take mc)))).length
        = 0
    · simp [buildChapterInfo, hc]
    · simp only [buildChapterInfo]
      rw [if_neg hc]
      omega
  · intro bpe text raw cpp mc h
    show buildChapterInfo bpe text (raw.take mc) cpp = _
    unfold buildChapterInfo
    rw [resolvePositions_eq_nil text (raw.take mc) h]
    rfl

/-- Witness for `generateOutline_nonempty`: the synthetic-chapter component
at a concrete text whose single raw chapter has an unresolvable marker. -/
theorem generateOutline_nonempty_witness :
    (generateOutlineModel charBPE "hello world" [⟨"t", "s", "zzz"⟩] 2000
        15).chapters
      = [{ index := 0
           title := "Full Document"
           summary := "The entire document content"
           startPage := 1
           endPage := ("hello world".length + 2000 - 1) / 2000
           estimatedTokens := countTokens charBPE "hello world"
           textRange := ⟨0, "hello world".length⟩ }] :=
  generateOutline_nonempty.2 charBPE "hello world" [⟨"t", "s", "zzz"⟩] 2000 15
    (by decide)

/-- Witness for `extractSelectedChaptersText_set_invariant`: the selections
`[1, 0, 0]` and `[0, 1]` (same member set, different order and multiplicity)
over a concrete two-chapter outline extract the identical string. -/
theorem extractSelectedChaptersText_set_invariant_witness :
    extractSelectedChaptersText "abcdef"
        ⟨1, 6, [⟨0, "c1", "s1", 1, 1, 3, ⟨0, 3⟩⟩,
          ⟨1, "c2", "s2", 1, 1, 3, ⟨3, 6⟩⟩]⟩ [1, 0, 0]
      = extractSelectedChaptersText "abcdef"
        ⟨1, 6, [⟨0, "c1", "s1", 1, 1, 3, ⟨0, 3⟩⟩,
          ⟨1, "c2", "s2", 1, 1, 3, ⟨3, 6⟩⟩]⟩ [0, 1] :=
  extractSelectedChaptersText_set_invariant.1 "abcdef"
    ⟨1, 6, [⟨0, "c1", "s1", 1, 1, 3, ⟨0, 3⟩⟩,
      ⟨1, "c2", "s2", 1, 1, 3, ⟨3, 6⟩⟩]⟩ [1, 0, 0] [0, 1]
    (by intro i; simp [List.mem_cons]; omega)

/-- A string with an empty character list is the empty string. -/
theorem string_eq_empty_of_data (s : String) (h : s.data = []) : s = "" := by
  apply String.ext
  rw [h]

/-- The one-token-per-character codec encodes nonempty text to a nonempty
token list. -/
theorem charBPE_encode_ne (s : String) (hs : s ≠ "") : charBPE.encode s ≠ [] := by
  intro h
  exact hs (string_eq_empty_of_data s (List.map_eq_nil_iff.mp h))

/-- The one-token-per-character codec never produces more tokens than
characters. -/
theorem charBPE_encode_length (s : String) :
    (charBPE.encode s).length ≤ s.length := by
  show (s.data.map Char.toNat).length ≤ s.length
  rw [List.length_map]
  exact Nat.le_refl _

/-- The one-token-per-character codec decodes a nonempty token list to
nonempty text. -/
theorem charBPE_decode_ne (ts : List Nat) (h : ts ≠ []) :
    charBPE.decode ts ≠ "" := by
  intro hdec
  have hmap : ts.map Char.ofNat = [] := congrArg String.data hdec
  exact h (List.map_eq_nil_iff.mp hmap)

/-- Decoding a token-prefix of a string's encoding never yields more
characters than the string had. -/
theorem charBPE_decode_take_length (s : String) (k : Nat) :
    (charBPE.decode ((charBPE.encode s).take k)).length ≤ s.length := by
  show (((s.data.map Char.toNat).take k).map Char.ofNat).length ≤ s.length
  rw [List.length_map, List.length_take, List.length_map]
  have e : s.length = s.data.length := rfl
  omega

/-- The `splitFixed` while-loop never terminates once entered on nonempty
text with a positive overlap: every token decodes to at least one character,
so `overlapChars = ⌊overlap · chunkLength / tokenCount⌋ ≥ 1` on every
iteration, and the next offset therefore always stays strictly below the
text length — the loop condition never becomes false and the break guard
(`chunkText.length === 0`) never fires.  The tokenizer hypotheses hold for
`gpt-tokenizer` on ASCII text and for any codec whose tokens decode to at
least one character each. -/
theorem splitFixedGo_none (bpe : BPE) (text : String) (maxTokens overlap : Nat)
    (htext : text ≠ "") (hmax : 1 ≤ maxTokens) (hover : 1 ≤ overlap)
    (henc : ∀ s : String, s ≠ "" → bpe.encode s ≠ [])
    (hencLen : ∀ s : String, (bpe.encode s).length ≤ s.length)
    (hdec : ∀ ts : List Nat, ts ≠ [] → bpe.decode ts ≠ "")
    (hdecLen : ∀ (s : String) (k : Nat),
      (bpe.decode ((bpe.encode s).take k)).length ≤ s.length) :
    ∀ (fuel : Nat) (offset : Int) (chunks : List TextChunk),
      offset < (text.length : Int) →
      splitFixedGo bpe text maxTokens overlap fuel offset chunks = none := by
  have e : text.length = text.data.length := rfl
  have hlen1 : 1 ≤ text.length := by
    rcases Nat.eq_zero_or_pos text.length with h0 | h1
    · exact absurd (string_eq_empty_of_data text (List.length_eq_zero.mp h0))
        htext
    · exact h1
  intro fuel
  induction fuel with
  | zero => intro o chunks _; rfl
  | succ fuel ih =>
    intro o chunks ho
    have hrem_len : (jsSliceFrom text o).length ≤ text.length := by
      unfold jsSliceFrom
      split
      · show (text.data.drop ((text.length : Int) + o).toNat).length
          ≤ text.length
        rw [List.length_drop]
        omega
      · show (text.data.drop o.toNat).length ≤ text.length
        rw [List.length_drop]
        omega
    have hrem_pos : 1 ≤ (jsSliceFrom text o).length := by
      unfold jsSliceFrom
      split
      · next hneg =>
        show 1 ≤ (text.data.drop ((text.length : Int) + o).toNat).length
        rw [List.length_drop]
        have hj : ((text.length : Int) + o).toNat ≤ text.length - 1 := by omega
        omega
      · next hpos =>
        show 1 ≤ (text.data.drop o.toNat).length
        rw [List.length_drop]
        have hj : o.toNat ≤ text.length - 1 := by omega
        omega
    have hrem_ne : jsSliceFrom text o ≠ "" := by
      intro h
      rw [h] at hrem_pos
      have h0 : ("" : String).length = 0 := rfl
      omega
    have hct_ne : truncateToTokens bpe (jsSliceFrom text o) maxTokens ≠ "" := by
      unfold truncateToTokens
      split
      · exact hrem_ne
      · apply hdec
        intro htake
        rcases List.take_eq_nil_iff.mp htake with h | h
        · omega
        · exact henc _ hrem_ne h
    have hct_pos :
        1 ≤ (truncateToTokens bpe (jsSliceFrom text o) maxTokens).length := by
      rcases Nat.eq_zero_or_pos
          (truncateToTokens bpe (jsSliceFrom text o) maxTokens).length
        with h0 | h1
      · exact absurd (string_eq_empty_of_data _ (List.length_eq_zero.mp h0))
          hct_ne
      · exact h1
    have hct_le : (truncateToTokens bpe (jsSliceFrom text o) maxTokens).length
        ≤ (jsSliceFrom text o).length := by
      unfold truncateToTokens
      split
      · exact Nat.le_refl _
      · exact hdecLen (jsSliceFrom text o) maxTokens
    have htok_pos :
        1 ≤ countTokens bpe (truncateToTokens bpe (jsSliceFrom text o)
          maxTokens) := by
      unfold countTokens
      rw [if_neg hct_ne]
      exact List.length_pos.mpr (henc _ hct_ne)
    have htok_le : countTokens bpe (truncateToTokens bpe (jsSliceFrom text o)
        maxTokens) ≤ (truncateToTokens bpe (jsSliceFrom text o)
          maxTokens).length := by
      unfold countTokens
      rw [if_neg hct_ne]
      exact hencLen _
    have hoc_pos : 1 ≤ overlap *
        (truncateToTokens bpe (jsSliceFrom text o) maxTokens).length /
        countTokens bpe (truncateToTokens bpe (jsSliceFrom text o) maxTokens) :=
      Nat.div_pos
        (le_trans htok_le (Nat.le_mul_of_pos_left _ hover)) htok_pos
    have hremlen : 0 ≤ o → ((jsSliceFrom text o).length : Int)
        = (text.length : Int) - o := by
      intro hpos
      unfold jsSliceFrom
      rw [if_neg (by omega)]
      show (((text.data.drop o.toNat).length : Nat) : Int) = _
      rw [List.length_drop]
      omega
    have hsum : o + ((truncateToTokens bpe (jsSliceFrom text o)
        maxTokens).length : Int) ≤ (text.length : Int) := by
      rcases lt_or_le o 0 with hneg | hpos
      · have hc : ((truncateToTokens bpe (jsSliceFrom text o) maxTokens).length
            : Int) ≤ (text.length : Int) := by
          exact_mod_cast le_trans hct_le hrem_len
        omega
      · have hr := hremlen hpos
        have hc : ((truncateToTokens bpe (jsSliceFrom text o) maxTokens).length
            : Int) ≤ ((jsSliceFrom text o).length : Int) := by
          exact_mod_cast hct_le
        omega
    have hnext : o + ((truncateToTokens bpe (jsSliceFrom text o)
          maxTokens).length : Int)
        - ((overlap * (truncateToTokens bpe (jsSliceFrom text o)
            maxTokens).length /
          countTokens bpe (truncateToTokens bpe (jsSliceFrom text o)
            maxTokens) : Nat) : Int)
        < (text.length : Int) := by
      have h2 : (1 : Int) ≤ ((overlap * (truncateToTokens bpe
          (jsSliceFrom text o) maxTokens).length /
          countTokens bpe (truncateToTokens bpe (jsSliceFrom text o)
            maxTokens) : Nat) : Int) := by
        exact_mod_cast hoc_pos
      omega
    have htok_ne : ¬ (countTokens bpe (truncateToTokens bpe
        (jsSliceFrom text o) maxTokens) = 0) := by omega
    have hct_ne0 : ¬ ((truncateToTokens bpe (jsSliceFrom text o)
        maxTokens).length = 0) := by omega
    simp only [splitFixedGo]
    rw [if_pos ho, if_neg htok_ne, if_neg hct_ne0]
    exact ih _ _ hnext

/-- C6 is refuted: `splitIntoChunks` does not terminate on all inputs with
`maxTokens > overlap ≥ 0`.  On the nonempty input `"abcdef"` with
`maxTokens = 2 > overlap = 1` under the `fixed` strategy, the fixed-width
loop runs forever: no amount of fuel makes it return. -/
theorem splitIntoChunks_fixed_diverges :
    ¬ ∃ (fuel : Nat) (chunks : List TextChunk),
      splitIntoChunks charBPE fuel "abcdef" 2 1 .fixed = some chunks := by
  rintro ⟨fuel, chunks, h⟩
  have hnone : splitIntoChunks charBPE fuel "abcdef" 2 1 .fixed = none := by
    have hgo := splitFixedGo_none charBPE "abcdef" 2 1 (by decide)
      (by norm_num) (by norm_num) charBPE_encode_ne charBPE_encode_length
      charBPE_decode_ne charBPE_decode_take_length fuel 0 [] (by decide)
    calc splitIntoChunks charBPE fuel "abcdef" 2 1 .fixed
        = splitFixedGo charBPE "abcdef" 2 1 fuel 0 [] := rfl
      _ = none := hgo
  rw [hnone] at h
  cases h

/-- C1 is refuted: the `deduct-credits` step is not idempotent per task.
Starting from a balance of 2 credits, executing the step twice for the same
task id at cost 1 (as a framework-level retry of the step would) yields a
balance of 0, not the balance 1 left by the first execution: the step does a
plain read-check-decrement with no guard keyed on the task id, so the
balance is reduced twice for one task. -/
theorem deductCreditsStep_not_idempotent :
    ∃ st₁ st₂ : BillingState,
      deductCreditsStep "user-1" "task-1" 1
          ⟨some ⟨2, 0⟩, []⟩ = .ok st₁ ∧
      deductCreditsStep "user-1" "task-1" 1 st₁ = .ok st₂ ∧
      st₁.creditsBalance = some ⟨1, 1⟩ ∧
      st₂.creditsBalance = some ⟨0, 2⟩ ∧
      st₂ ≠ st₁ := by
  refine ⟨⟨some ⟨1, 1⟩, [⟨"user-1", 1, "flashcard_generation", "task-1"⟩]⟩,
    ⟨some ⟨0, 2⟩, [⟨"user-1", 1, "flashcard_generation", "task-1"⟩,
      ⟨"user-1", 1, "flashcard_generation", "task-1"⟩]⟩, ?_, ?_, rfl, rfl, ?_⟩
  · simp [deductCreditsStep]
    norm_num
  · simp [deductCreditsStep]
    norm_num
  · intro h
    simpa using congrArg BillingState.creditsBalance h

/-- C4 is refuted: when a step of the analyzing phase throws (here the
`download-and-parse` step), no code in the repository transitions the task to
`failed` or persists an `errorMessage` — the run aborts with the task left
in status `analyzing` and `errorMessage` still `null`. -/
theorem analyzeDocument_failure_not_marked :
    (analyzeDocument charBPE (.error "Failed to parse file") (.ok [])
        "user-1" "task-1"
        ⟨"pending", none, none, none, none, none, none, none, none⟩
        ⟨some ⟨5, 0⟩, []⟩).1.status = "analyzing" ∧
    (analyzeDocument charBPE (.error "Failed to parse file") (.ok [])
        "user-1" "task-1"
        ⟨"pending", none, none, none, none, none, none, none, none⟩
        ⟨some ⟨5, 0⟩, []⟩).1.errorMessage = none ∧
    (analyzeDocument charBPE (.error "Failed to parse file") (.ok [])
        "user-1" "task-1"
        ⟨"pending", none, none, none, none, none, none, none, none⟩
        ⟨some ⟨5, 0⟩, []⟩).1.status ≠ "failed" := by
  refine ⟨rfl, rfl, ?_⟩
  intro h
  exact absurd h (by decide)

end Ankigenix
